import Mathlib

/-!
Verification development for the streaming voice-recognition pipeline
(`src/voice_recognition.py`, class `AdvancedVoiceRecognition`).

The Python source is shallowly embedded:

* recognized text is `String` (worked on through its `List Char` data);
* Python `str.split()` (split on runs of whitespace, discarding empty
  pieces) is `pySplit`;
* the dict `symbol_mappings` is an association list;
* float confidences and timestamps are modelled as exact rationals `ℚ`;
* Python dicts returned by the Vosk recognizer are modelled as a structure
  with `Option` fields for optionally-present keys;
* code that can raise a runtime exception returns `Except PyError _`;
* the Vosk `KaldiRecognizer` is an oracle: each audio chunk comes with the
  `(accepted, result)` answer the engine would give for it;
* the `while self.running` loop of `start_recognition` is a deterministic
  step function `loopStep` on a state with an explicit program counter,
  and the blocking `self.q.get()` on an empty queue is a stuttering step.
-/

namespace VoiceRec

/-- Python whitespace characters recognized by `str.split()` (ASCII range:
space, tab, newline, carriage return, vertical tab, form feed). -/
def isPySpace (c : Char) : Bool :=
  c = ' ' || c = '\t' || c = '\n' || c = '\r' || c = '\x0b' || c = '\x0c'

/-- Worker for `pySplit`: `acc` holds the (reversed) characters of the token
currently being read. Tokens are maximal runs of non-whitespace characters;
no empty token is ever produced, exactly as Python `str.split()`. -/
def splitAux : List Char → List Char → List (List Char)
  | [], acc => if acc = [] then [] else [acc.reverse]
  | c :: cs, acc =>
      if isPySpace c then
        if acc = [] then splitAux cs [] else acc.reverse :: splitAux cs []
      else
        splitAux cs (c :: acc)

/-- Python `text.split()` (line 68 of the source): split on runs of
whitespace, dropping empty pieces and leading/trailing whitespace. -/
def pySplit (s : List Char) : List (List Char) :=
  splitAux s []

/-- Python `str.lower()` on the ASCII range (the mapping keys are ASCII). -/
def pyLowerChar (c : Char) : Char :=
  if 'A' ≤ c ∧ c ≤ 'Z' then Char.ofNat (c.toNat + 32) else c

/-- Python `word.lower()` (line 73 of the source). -/
def pyLower (w : List Char) : List Char :=
  w.map pyLowerChar

/-- The dict `self.symbol_mappings` (lines 60–64 of the source), as an
association list from lowercase token to replacement symbol. -/
def symbol_mappings : List (List Char × List Char) :=
  [("dash".data, "-".data), ("hyphen".data, "-".data), ("minus".data, "-".data)]

/-- Python `self.symbol_mappings.get(lower_word, word)` (line 75). -/
def mappingsGet (key dflt : List Char) : List Char :=
  match (symbol_mappings.lookup key) with
  | some v => v
  | none => dflt

/-- The per-token body of the loop in `process_text` (lines 71–76):
lowercase the word and replace it by its mapped symbol when the lowercase
form is a key of `symbol_mappings`, otherwise keep the word. -/
def processWord (word : List Char) : List Char :=
  mappingsGet (pyLower word) word

/-- Python `" ".join(processed_words)` (line 78): concatenate the pieces
with a single space between consecutive ones. -/
def pyJoin : List (List Char) → List Char
  | [] => []
  | [t] => t
  | t :: ts => t ++ ' ' :: pyJoin ts

/-- The function `process_text` of the source (lines 66–78), on character
lists: split on whitespace, map each token through the symbol mapping, and
rejoin with a single space. -/
def processTextL (text : List Char) : List Char :=
  pyJoin ((pySplit text).map processWord)

/-- The function `process_text` on `String`. -/
def process_text (text : String) : String :=
  ⟨processTextL text.data⟩

/-- Spec-side token substitution, written from the spec's words: a token
that case-insensitively equals "dash", "hyphen" or "minus" is replaced
wholesale with "-"; every other token is kept unchanged. -/
def substSpec (t : List Char) : List Char :=
  if pyLower t = "dash".data ∨ pyLower t = "hyphen".data ∨ pyLower t = "minus".data
  then "-".data else t

example : process_text "Turn DASH up" = "Turn - up" := by decide
example : process_text "a dashboard" = "a dashboard" := by decide
example : process_text "a  b" = "a b" := by decide

/-- One entry of the `"result"` word list of a Vosk result dict. The keys
`conf`, `start`, `end` are read with `.get(key, 0)` in the source, so they
are modelled as optional; float values are modelled as exact rationals. -/
structure WordInfo where
  word : String
  conf : Option ℚ
  start : Option ℚ
  «end» : Option ℚ
deriving DecidableEq, Repr

/-- The dict produced by `json.loads(self.recognizer.Result())`: a `"text"`
entry (absent/empty is modelled as `""`, both are falsy for the
`result.get("text")` check) and an optionally present `"result"` word list. -/
structure VoskResult where
  text : String
  result : Option (List WordInfo)
deriving DecidableEq, Repr

/-- Python runtime exceptions that the loop body can raise. -/
inductive PyError where
  | zeroDivisionError
  | indexError
deriving DecidableEq, Repr

/-- The log lines emitted inside the `while` loop (lines 151–164),
modelled as structured events so their content can be inspected. -/
inductive LogEvent where
  /-- line 151: `Recognized [start s - end s]: text` (the utterance span). -/
  | recognizedSpan (start «end» : ℚ) (text : String)
  /-- line 152: `Confidence: conf`. -/
  | confidence (conf : ℚ)
  /-- line 158: per-word debug diagnostic for a low-confidence word. -/
  | wordDetail (word : String) (conf start «end» : ℚ)
  /-- line 164: `Recognized: text` with no span and no confidence. -/
  | recognizedPlain (text : String)
deriving DecidableEq, Repr

/-- Line 145 of the source:
`sum(word.get("conf", 0) for word in result["result"]) / len(result["result"])`.
Python raises `ZeroDivisionError` when the word list is empty; the
embedding returns it as an `Except` error. -/
def aggregateConf (ws : List WordInfo) : Except PyError ℚ :=
  if ws.length = 0 then .error .zeroDivisionError
  else .ok ((ws.map (fun w => w.conf.getD 0)).sum / (ws.length : ℚ))

/-- Lines 154–162: the per-word diagnostic loop, emitting an event for
every word whose confidence (default 0) is below 0.8. -/
def wordDetails (ws : List WordInfo) : List LogEvent :=
  ws.filterMap (fun w =>
    if w.conf.getD 0 < (8 : ℚ) / 10 then
      some (.wordDetail w.word (w.conf.getD 0) (w.start.getD 0) (w.«end».getD 0))
    else none)

/-- Lines 142–164 of the source: the reporting part of the loop body, run
on a result that was just appended to the history. When the `"result"` key
is present, the overall confidence is computed (raising on an empty list),
the span is taken from the first word's `start` and the last word's `end`,
and low-confidence words are detailed; otherwise the text alone is logged. -/
def handle_result (res : VoskResult) : Except PyError (List LogEvent) :=
  match res.result with
  | some ws =>
      match aggregateConf ws with
      | .error e => .error e
      | .ok conf =>
          match ws with
          | [] => .error .indexError  -- `result["result"][0]` on an empty list
          | w :: rest =>
              let wl := w :: rest
              .ok ([LogEvent.recognizedSpan (w.start.getD 0)
                      ((wl.getLast (by simp)).«end».getD 0) res.text,
                    LogEvent.confidence conf] ++ wordDetails wl)
  | none => .ok [.recognizedPlain res.text]

/-- The method `process_audio_chunk` (lines 108–116). The Vosk engine is an oracle:
`accepted` is the boolean returned by `self.recognizer.AcceptWaveform`
for this chunk and `res` the parsed dict `self.recognizer.Result()` would
yield. Returns the result (with its text post-processed) only when the
chunk finalizes an utterance whose raw text is non-empty (truthy). -/
def process_audio_chunk (accepted : Bool) (res : VoskResult) :
    Option VoskResult :=
  if accepted then
    if res.text ≠ "" then some { res with text := process_text res.text }
    else none
  else none

/-- One iteration of the body of `while self.running` (lines 134–164),
given the engine's answer for the chunk just popped from the queue and
the current `self.recognition_history`. Returns the new history and the
outcome of the reporting code. The `append` at line 139 happens before
the confidence computation, so the result is in the history even when the
reporting code raises. -/
def loop_body (accepted : Bool) (res : VoskResult)
    (history : List VoskResult) :
    List VoskResult × Except PyError (List LogEvent) :=
  match process_audio_chunk accepted res with
  | some r => (history ++ [r], handle_result r)
  | none => (history, .ok [])

/-- An audio chunk together with the engine oracle's answer for it:
the boolean `AcceptWaveform` would return, and the parsed `Result()`. -/
abbrev ChunkResp : Type := Bool × VoskResult

/-- Program counter of the `start_recognition` loop thread. -/
inductive PC where
  /-- about to evaluate the `while self.running` condition (line 133). -/
  | test
  /-- blocked inside `self.q.get()` (line 135). -/
  | getWait
  /-- the method `start_recognition` has returned (loop exited, or the outer
  `except Exception` handler at lines 169–171 ran and the function ended). -/
  | done
deriving DecidableEq, Repr

/-- State of the recognition thread together with the instance fields it
shares with the other threads: the run flag `self.running`, the transit
queue `self.q` and `self.recognition_history`. -/
structure LoopState where
  running : Bool
  q : List ChunkResp
  recognition_history : List VoskResult
  pc : PC
deriving DecidableEq, Repr

/-- One step of the recognition thread (lines 133–164). `self.q.get()`
is called with no timeout and no sentinel item, so on an empty queue the
thread makes no progress: the step stutters. (The `except queue.Empty`
handler at lines 166–167 is unreachable: a `Queue.get` with no timeout
never raises `queue.Empty`.) If the reporting code raises, the outer
handler (lines 169–171) calls `stop_recognition` and the function
returns. -/
def loopStep (s : LoopState) : LoopState :=
  match s.pc with
  | .test =>
      if s.running then { s with pc := .getWait } else { s with pc := .done }
  | .getWait =>
      match s.q with
      | [] => s
      | (accepted, res) :: rest =>
          let out := loop_body accepted res s.recognition_history
          match out.2 with
          | .ok _ =>
              { running := s.running, q := rest,
                recognition_history := out.1, pc := .test }
          | .error _ =>
              { running := false, q := rest,
                recognition_history := out.1, pc := .done }
  | .done => s

/-- The method `stop_recognition` (lines 173–176): sets the run flag false. It does
not enqueue any sentinel item and does not interact with the queue. -/
def stop_recognition (s : LoopState) : LoopState :=
  { s with running := false }

/-- The method `callback` (lines 102–106): `self.q.put(bytes(indata))`, appending a
chunk at the tail of the FIFO queue. -/
def callback (s : LoopState) (c : ChunkResp) : LoopState :=
  { s with q := s.q ++ [c] }

/-- The state right after `start_recognition` sets `self.running = True`
and enters the loop, with an empty queue and empty history. -/
def start_state : LoopState :=
  { running := true, q := [], recognition_history := [], pc := .test }

/-- Line 139, `self.recognition_history.append(result)`, on the history
list object. -/
def append_result (h : List VoskResult) (r : VoskResult) : List VoskResult :=
  h ++ [r]

/-- The method `clear_history` (lines 182–184): `self.recognition_history.clear()`
mutates the one history list object in place. -/
def clear_history (_h : List VoskResult) : List VoskResult :=
  []

/-- The method `get_recognition_history` (lines 178–180) is
`return self.recognition_history`: it returns a reference to the very
list object the instance keeps mutating, not a copy. A sequence obtained
from it, observed when the instance's state is `h`, therefore shows `h`
itself — the contents of the shared object at observation time. -/
def observe_history_ref (h : List VoskResult) : List VoskResult :=
  h

/-! ### Lemmas about the tokenizer -/

theorem splitAux_append_nospace (t : List Char)
    (ht : ∀ c ∈ t, isPySpace c = false) :
    ∀ (cs acc : List Char), splitAux (t ++ cs) acc = splitAux cs (t.reverse ++ acc) := by
  induction t with
  | nil => intro cs acc; simp
  | cons c t ih =>
      intro cs acc
      have hc : isPySpace c = false := ht c (by simp)
      have ht' : ∀ x ∈ t, isPySpace x = false := fun x hx => ht x (by simp [hx])
      simp only [List.cons_append, splitAux, hc, Bool.false_eq_true, if_false]
      show splitAux (t ++ cs) (c :: acc) = splitAux cs ((c :: t).reverse ++ acc)
      rw [ih ht' cs (c :: acc)]
      simp

theorem splitAux_tokens (s : List Char) :
    ∀ acc, (∀ c ∈ acc, isPySpace c = false) →
      ∀ t ∈ splitAux s acc, t ≠ [] ∧ ∀ c ∈ t, isPySpace c = false := by
  induction s with
  | nil =>
      intro acc hacc t ht
      simp only [splitAux] at ht
      split at ht
      · simp at ht
      · next hne =>
          simp only [List.mem_singleton] at ht
          subst ht
          refine ⟨by simpa using hne, ?_⟩
          intro c hc
          exact hacc c (by simpa using hc)
  | cons c cs ih =>
      intro acc hacc t ht
      simp only [splitAux] at ht
      by_cases hsp : isPySpace c
      · rw [if_pos hsp] at ht
        split at ht
        · exact ih [] (by simp) t ht
        · next hne =>
            rcases List.mem_cons.mp ht with h | h
            · subst h
              refine ⟨by simpa using hne, ?_⟩
              intro x hx
              exact hacc x (by simpa using hx)
            · exact ih [] (by simp) t h
      · rw [if_neg hsp] at ht
        refine ih (c :: acc) ?_ t ht
        intro x hx
        rcases List.mem_cons.mp hx with h | h
        · subst h; simpa using hsp
        · exact hacc x h

/-- Every token produced by `pySplit` is non-empty and contains no
whitespace character. -/
theorem pySplit_tokens (s : List Char) :
    ∀ t ∈ pySplit s, t ≠ [] ∧ ∀ c ∈ t, isPySpace c = false :=
  splitAux_tokens s [] (by simp)

/-- Splitting undoes joining, provided every piece is a non-empty
whitespace-free token. -/
theorem pySplit_pyJoin (ts : List (List Char))
    (hts : ∀ t ∈ ts, t ≠ [] ∧ ∀ c ∈ t, isPySpace c = false) :
    pySplit (pyJoin ts) = ts := by
  induction ts with
  | nil => simp [pyJoin, pySplit, splitAux]
  | cons t ts ih =>
      rcases hts t (by simp) with ⟨hne, hns⟩
      have hts' : ∀ u ∈ ts, u ≠ [] ∧ ∀ c ∈ u, isPySpace c = false :=
        fun u hu => hts u (by simp [hu])
      match ts with
      | [] =>
          show pySplit t = [t]
          unfold pySplit
          have h := splitAux_append_nospace t hns [] []
          rw [List.append_nil] at h
          rw [h]
          simp only [splitAux, List.append_nil]
          rw [if_neg (by simpa using hne)]
          simp
      | u :: us =>
          show pySplit (t ++ ' ' :: pyJoin (u :: us)) = t :: u :: us
          unfold pySplit
          rw [splitAux_append_nospace t hns (' ' :: pyJoin (u :: us)) []]
          simp only [splitAux, List.append_nil]
          rw [if_pos (by decide)]
          rw [if_neg (by simpa using hne)]
          rw [List.reverse_reverse]
          have := ih hts'
          unfold pySplit at this
          rw [this]

/-! ### Lemmas about the symbol mapping -/

/-- The dict lookup with default agrees with the three case-insensitive
comparisons named by the spec. -/
theorem mappingsGet_eq (k d : List Char) :
    mappingsGet k d =
      if k = "dash".data ∨ k = "hyphen".data ∨ k = "minus".data
      then "-".data else d := by
  by_cases h1 : k = "dash".data
  · subst h1; simp [mappingsGet, symbol_mappings, List.lookup]
  · by_cases h2 : k = "hyphen".data
    · subst h2; simp [mappingsGet, symbol_mappings, List.lookup]
    · by_cases h3 : k = "minus".data
      · subst h3; simp [mappingsGet, symbol_mappings, List.lookup]
      · rw [if_neg (by tauto)]
        simp only [mappingsGet, symbol_mappings, List.lookup]
        rw [beq_false_of_ne h1, beq_false_of_ne h2, beq_false_of_ne h3]

/-- The per-token pass of `process_text` coincides with the substitution
the spec describes token by token. -/
theorem processWord_eq_substSpec (t : List Char) :
    processWord t = substSpec t := by
  rw [processWord, substSpec, mappingsGet_eq]

theorem processWord_cases (t : List Char) :
    processWord t = "-".data ∨ processWord t = t := by
  rw [processWord_eq_substSpec, substSpec]
  split
  · exact Or.inl rfl
  · exact Or.inr rfl

theorem processWord_idem (t : List Char) :
    processWord (processWord t) = processWord t := by
  rcases processWord_cases t with h | h
  · rw [h]; decide
  · rw [h]; exact h

/-- The per-token pass keeps tokens non-empty and whitespace-free. -/
theorem processWord_token (t : List Char) (hne : t ≠ [])
    (hns : ∀ c ∈ t, isPySpace c = false) :
    processWord t ≠ [] ∧ ∀ c ∈ processWord t, isPySpace c = false := by
  rcases processWord_cases t with h | h
  · rw [h]; exact ⟨by decide, by decide⟩
  · rw [h]; exact ⟨hne, hns⟩

/-- Tokens that do not hit the mapping are left alone by the per-token
pass. -/
theorem processWord_of_unmapped (t : List Char)
    (h : symbol_mappings.lookup (pyLower t) = none) : processWord t = t := by
  rw [processWord, mappingsGet, h]

/-- The normalizer is idempotent at the level of character lists. -/
theorem processTextL_idem (l : List Char) :
    processTextL (processTextL l) = processTextL l := by
  have htok := pySplit_tokens l
  have htok' : ∀ t ∈ (pySplit l).map processWord,
      t ≠ [] ∧ ∀ c ∈ t, isPySpace c = false := by
    intro t ht
    rcases List.mem_map.mp ht with ⟨u, hu, rfl⟩
    rcases htok u hu with ⟨hne, hns⟩
    exact processWord_token u hne hns
  have h1 : pySplit (processTextL l) = (pySplit l).map processWord :=
    pySplit_pyJoin _ htok'
  have h2 : ((pySplit l).map processWord).map processWord =
      (pySplit l).map processWord := by
    rw [List.map_map]
    exact List.map_congr_left (fun u _ => processWord_idem u)
  show pyJoin ((pySplit (processTextL l)).map processWord) = processTextL l
  rw [h1, h2]
  rfl

/-! ### Claims -/

/-- C3: For every input string, `process_text` replaces each
whitespace-delimited token that case-insensitively equals "dash",
"hyphen", or "minus" wholesale with "-", and keeps every other token
unchanged with its original casing, in the original order (the rejoined
output lists the substituted tokens in token order); the lookup matches
only whole tokens, never substrings (witnessed by "dashboard" passing
through untouched); in particular `process_text "Turn DASH up" = "Turn - up"`. -/
theorem C3_token_substitution :
    (∀ s : List Char, processTextL s = pyJoin ((pySplit s).map substSpec)) ∧
    process_text "Turn DASH up" = "Turn - up" ∧
    process_text "a dashboard" = "a dashboard" := by
  refine ⟨?_, by decide, by decide⟩
  intro s
  rw [processTextL]
  have h : processWord = substSpec := funext processWord_eq_substSpec
  rw [h]

/-- C4 (counterexample): the claim "`process_text s = s` for every `s`
containing no mapped token" fails on the code: the input "a  b" has only
unmapped tokens, yet the double space is collapsed to a single one. -/
theorem C4_counterexample :
    (∀ t ∈ pySplit "a  b".data, symbol_mappings.lookup (pyLower t) = none) ∧
    process_text "a  b" ≠ "a  b" := by
  decide

/-- C4 (amended): `process_text s = s` for every `s` containing no mapped
token, provided additionally that `s` is already in single-space-joined
form (no leading/trailing whitespace, single spaces between tokens), since
the tokens are rejoined with a single space. -/
theorem C4_identity_on_unmapped :
    ∀ s : String,
      (∀ t ∈ pySplit s.data, symbol_mappings.lookup (pyLower t) = none) →
      pyJoin (pySplit s.data) = s.data →
      process_text s = s := by
  intro s hunmapped hjoin
  have hmapeq : (pySplit s.data).map processWord = pySplit s.data := by
    have h1 : (pySplit s.data).map processWord = (pySplit s.data).map id :=
      List.map_congr_left (fun t ht => processWord_of_unmapped t (hunmapped t ht))
    simpa using h1
  have h2 : processTextL s.data = s.data := by
    rw [processTextL, hmapeq, hjoin]
  show (⟨processTextL s.data⟩ : String) = s
  rw [h2]

/-- C4 (witness): the amended claim at the concrete input "Turn it up". -/
theorem C4_identity_witness : process_text "Turn it up" = "Turn it up" :=
  C4_identity_on_unmapped "Turn it up" (by decide) (by decide)

/-- C10: `process_text` is idempotent: applying it twice gives the same
string as applying it once, because replacement symbols are never mapping
keys and the output is already single-space-joined. -/
theorem C10_process_text_idempotent :
    ∀ s : String, process_text (process_text s) = process_text s := by
  intro s
  show (⟨processTextL (processTextL s.data)⟩ : String) = ⟨processTextL s.data⟩
  rw [processTextL_idem]

/-- C5: For every finalized result with a non-empty word list, the
aggregated confidence is the arithmetic mean of the word confidences
(the returned value times the word count equals the confidence sum);
in particular words with confidences 1.0 and 0.5 aggregate to 0.75. -/
theorem C5_confidence_mean :
    (∀ ws : List WordInfo, ws ≠ [] →
      ∃ c : ℚ, aggregateConf ws = .ok c ∧
        c * (ws.length : ℚ) = ((ws.map fun w => w.conf.getD 0).sum)) ∧
    aggregateConf [⟨"a", some 1, none, none⟩, ⟨"b", some (1/2), none, none⟩] =
      .ok (3/4) := by
  constructor
  · intro ws hne
    have hlen : ws.length ≠ 0 := fun h => hne (List.length_eq_zero.mp h)
    have hlenQ : (ws.length : ℚ) ≠ 0 := by exact_mod_cast hlen
    refine ⟨((ws.map fun w => w.conf.getD 0).sum) / (ws.length : ℚ), ?_, ?_⟩
    · rw [aggregateConf, if_neg hlen]
    · exact div_mul_cancel₀ _ hlenQ
  · rw [aggregateConf, if_neg (by decide)]
    congr 1
    simp only [List.map_cons, List.map_nil, List.sum_cons, List.sum_nil,
      Option.getD_some, List.length_cons, List.length_nil]
    norm_num

/-- C5 (witness): the general part of the claim at a one-word list. -/
theorem C5_confidence_mean_witness :
    ∃ c : ℚ, aggregateConf [⟨"w", some 1, none, none⟩] = .ok c ∧
      c * (([⟨"w", some 1, none, none⟩] : List WordInfo).length : ℚ) =
        ((([⟨"w", some 1, none, none⟩] : List WordInfo).map
            fun w => w.conf.getD 0).sum) :=
  C5_confidence_mean.1 [⟨"w", some 1, none, none⟩] (by decide)

/-- C6: For a finalized result whose word list is present and non-empty,
the reported utterance span starts at the first word's start and ends at
the last word's end; when the word list is absent the result is logged
with no span at all. -/
theorem C6_utterance_span :
    (∀ (t : String) (w : WordInfo) (rest : List WordInfo) (a b : ℚ),
        w.start = some a →
        (List.getLast (w :: rest) (List.cons_ne_nil w rest)).«end» = some b →
        ∃ c evs, handle_result ⟨t, some (w :: rest)⟩ =
          .ok (LogEvent.recognizedSpan a b t :: LogEvent.confidence c :: evs)) ∧
    (∀ t : String, handle_result ⟨t, none⟩ = .ok [LogEvent.recognizedPlain t]) := by
  constructor
  · intro t w rest a b ha hb
    have hagg : aggregateConf (w :: rest) =
        .ok ((((w :: rest).map fun x => x.conf.getD 0).sum) /
          (((w :: rest).length : ℕ) : ℚ)) := by
      rw [aggregateConf, if_neg (by simp)]
    refine ⟨(((w :: rest).map fun x => x.conf.getD 0).sum) /
        (((w :: rest).length : ℕ) : ℚ), wordDetails (w :: rest), ?_⟩
    simp only [handle_result, hagg, ha, hb, Option.getD_some, List.cons_append,
      List.nil_append]
  · intro t
    rfl

/-- C6 (witness): the span of a one-word utterance with start 0.1 and
end 0.4. -/
theorem C6_utterance_span_witness :
    ∃ c evs,
      handle_result ⟨"hi", some [⟨"x", some 1, some (1/10), some (2/5)⟩]⟩ =
        .ok (LogEvent.recognizedSpan (1/10) (2/5) "hi" ::
          LogEvent.confidence c :: evs) :=
  C6_utterance_span.1 "hi" ⟨"x", some 1, some (1/10), some (2/5)⟩ []
    (1/10) (2/5) rfl rfl

/-- C7: A result is appended to the history exactly when the engine
finalizes the chunk and the hypothesis text is non-empty: in that case
the post-processed result is appended at the tail, and in every other
case (not finalized, or empty text) the history is left unchanged. -/
theorem C7_history_append_condition :
    ∀ (accepted : Bool) (res : VoskResult) (history : List VoskResult),
      (accepted = true ∧ res.text ≠ "" →
        (loop_body accepted res history).1 =
          history ++ [{ res with text := process_text res.text }]) ∧
      ((accepted = false ∨ res.text = "") →
        (loop_body accepted res history).1 = history) := by
  intro accepted res history
  constructor
  · rintro ⟨rfl, hne⟩
    simp [loop_body, process_audio_chunk, hne]
  · rintro (rfl | hemp)
    · simp [loop_body, process_audio_chunk]
    · cases accepted <;> simp [loop_body, process_audio_chunk, hemp]

/-- C7 (witness): both cases at concrete inputs: a finalized non-empty
hypothesis is appended, a non-finalized chunk changes nothing. -/
theorem C7_history_append_witness :
    (loop_body true ⟨"hi", none⟩ []).1 =
      [] ++ [{ (⟨"hi", none⟩ : VoskResult) with text := process_text "hi" }] ∧
    (loop_body false ⟨"hi", none⟩ []).1 = [] :=
  ⟨(C7_history_append_condition true ⟨"hi", none⟩ []).1 ⟨rfl, by decide⟩,
   (C7_history_append_condition false ⟨"hi", none⟩ []).2 (Or.inl rfl)⟩

/-- C8 (counterexample): `get_recognition_history` does not return a copy:
after appending one result and taking the returned sequence, `clear_history`
empties that very sequence — observing the reference after the clear no
longer gives what it showed before the clear. -/
theorem C8_counterexample :
    observe_history_ref (clear_history (append_result [] ⟨"hi", none⟩)) ≠
      observe_history_ref (append_result [] ⟨"hi", none⟩) := by
  decide

/-- C8 (amended): `get_recognition_history` returns the live history list
(an alias, not a copy): a sequence previously obtained from it observes
every subsequent `append` (one more element at the tail) and observes `[]`
after `clear_history`. -/
theorem C8_snapshot_is_alias :
    ∀ (h : List VoskResult) (r : VoskResult),
      observe_history_ref (append_result h r) = observe_history_ref h ++ [r] ∧
      observe_history_ref (clear_history h) = [] := by
  intro h r
  exact ⟨rfl, rfl⟩

/-- C9: the history preserves arrival order: appending R1 then R2 to an
empty store makes the observed sequence exactly [R1, R2]; and the
recognition loop only ever extends the history at the tail (the previous
contents stay, in order, as a prefix), so it never reorders or
deduplicates previously appended results. -/
theorem C9_append_order :
    (∀ r1 r2 : VoskResult,
      observe_history_ref (append_result (append_result [] r1) r2) = [r1, r2]) ∧
    (∀ (accepted : Bool) (res : VoskResult) (history : List VoskResult),
      ∃ added, (loop_body accepted res history).1 = history ++ added) := by
  constructor
  · intro r1 r2
    rfl
  · intro accepted res history
    cases h : process_audio_chunk accepted res with
    | some r => exact ⟨[r], by simp [loop_body, h]⟩
    | none => exact ⟨[], by simp [loop_body, h]⟩

/-- C1: the claimed bounded-time shutdown fails in the code: if the stop
request arrives while the recognition thread is blocked in `self.q.get()`
(which has no timeout and no sentinel item) and no further chunk arrives,
then no number of scheduler steps ever moves the thread out of the blocked
state — the loop never terminates, although the history is indeed still
empty. -/
theorem C1_stop_while_blocked_never_terminates :
    ∀ n : ℕ,
      loopStep^[n] (stop_recognition (loopStep start_state)) =
        stop_recognition (loopStep start_state) ∧
      (stop_recognition (loopStep start_state)).pc = PC.getWait ∧
      (stop_recognition (loopStep start_state)).recognition_history = [] := by
  intro n
  exact ⟨Function.iterate_fixed rfl n, rfl, rfl⟩

/-- C2: the claimed local recovery fails in the code: a finalized result
with non-empty text and a present-but-empty word list makes the
confidence computation divide by zero; the error escapes the inner loop
(whose only handler is for `queue.Empty`), reaches the outer handler, and
the recognition loop exits (`pc = done`) instead of continuing. -/
theorem C2_empty_word_list_crashes_loop :
    aggregateConf [] = .error .zeroDivisionError ∧
    loop_body true ⟨"hello", some []⟩ [] =
      ([⟨"hello", some []⟩], .error PyError.zeroDivisionError) ∧
    loopStep (loopStep (callback start_state (true, ⟨"hello", some []⟩))) =
      { running := false, q := [], recognition_history := [⟨"hello", some []⟩],
        pc := PC.done } := by
  refine ⟨rfl, ?_, ?_⟩ <;> rfl

end VoiceRec
